import Mathlib

/-!
Verification of the tmonad Future and Option containers (src/lib/future.ts,
src/lib/option.ts).

The Future of the source is a lazy CPS computation: its `action` receives a
success callback and a failure callback and returns a cancellation function.
We shallow-embed the synchronous fragment of that model: side effects are
state passing over an arbitrary state type `σ`, and base actions may record
instrumentation events (`Ev`) through an emitter, which lets the theorems
observe when an underlying action or a cancellation function is invoked.
Callbacks are state transformers `T → σ → σ`; an action returns the final
state together with the cancellation function `σ → σ × Bool`.

User-supplied callbacks that may throw are modelled in the `Except` monad:
`Except.error thrown` is a synchronous throw of the value `thrown`.

Promises are modelled synchronously: `Future.await` runs the action with
first-settlement-wins recording callbacks (the Promise executor semantics of
`new Promise(this.extract.bind(this))`), returning `none` when the action
settles never, `some outcome` otherwise.
-/

namespace TMonad

/-- Instrumentation events: `invoked id` is recorded when the underlying base
action with identity `id` starts running; `cancelled id` when its cancellation
function is invoked. -/
inductive Ev : Type
  | invoked (id : Nat)
  | cancelled (id : Nat)
  deriving DecidableEq

/-- The type of a Future action (src/lib/future.ts line 61): it takes the two
settlement callbacks and returns the cancellation function. The state type
`σ`, threaded explicitly, carries the ambient effects; `Ev → σ → σ` is the
instrumentation emitter available to base actions. -/
abbrev ActionT (T E : Type) : Type 1 :=
  (σ : Type) → (Ev → σ → σ) → (T → σ → σ) → (E → σ → σ) → σ → σ × (σ → σ × Bool)

/-- A Future (src/lib/future.ts lines 57-71): the constructor merely stores
the action. -/
structure Future (T E : Type) : Type 1 where
  action : ActionT T E

variable {T E U A B : Type}

/-- `extract` (future.ts lines 251-253): run the action with the given
callbacks, returning the cancellation function. -/
def Future.extract (f : Future T E) (σ : Type) (emit : Ev → σ → σ)
    (success : T → σ → σ) (error : E → σ → σ) (s : σ) : σ × (σ → σ × Bool) :=
  f.action σ emit success error s

/-- The type of a user-supplied cancellation function `() => boolean`. -/
abbrev PCancel : Type 1 := (σ : Type) → (Ev → σ → σ) → σ → σ × Bool

/-- The always-true cancel `() => true` used as `of`/`reject` default. -/
def trueCancel : PCancel := fun _ _ s => (s, true)

/-- `Future.of` (future.ts lines 79-84): immediately resolve with `x`, return
the cancel function (the default `() => true`). -/
def Future.of (x : T) (cancel : PCancel) : Future T E :=
  ⟨fun σ emit res _ s => (res x s, cancel σ emit)⟩

/-- `Future.of` with the default cancel argument. -/
def Future.ofd (x : T) : Future T E :=
  Future.of x trueCancel

/-- `Future.reject` (future.ts lines 92-97): immediately reject with `x`. -/
def Future.reject (x : E) (cancel : PCancel) : Future T E :=
  ⟨fun σ emit _ rej s => (rej x s, cancel σ emit)⟩

/-- `Future.reject` with the default cancel argument. -/
def Future.rejectd (x : E) : Future T E :=
  Future.reject x trueCancel

/-- A promise factory `() => Promise<T>`: invoking it performs its effects on
the state and yields the promise outcome; `none` models a promise that never
settles. -/
abbrev PFac (T A : Type) : Type 1 :=
  (σ : Type) → (Ev → σ → σ) → σ → σ × Option (Except A T)

/-- `Future.fromP` with a factory argument (future.ts lines 105-118): the
factory is invoked when the action runs; its resolution calls `resolve`, its
rejection calls `reject` after the error mapper `m`; the cancel function is
`() => true`. -/
def Future.fromP (x : PFac T A) (m : A → E) : Future T E :=
  ⟨fun σ emit res rej s =>
    (match x σ emit s with
      | (s1, some (Except.ok t)) => res t s1
      | (s1, some (Except.error e)) => rej (m e) s1
      | (s1, none) => s1,
     fun s1 => (s1, true))⟩

/-- `await` (future.ts lines 259-261): `new Promise(this.extract.bind(this))`.
The Promise executor invokes the action at once; the first settlement wins and
is recorded; the cancellation function is not exposed. -/
def Future.await (f : Future T E) (σ : Type) (emit : Ev → σ → σ) (s : σ) :
    σ × Option (Except E T) :=
  (f.extract (σ × Option (Except E T))
    (fun ev p => (emit ev p.1, p.2))
    (fun t p => (p.1, match p.2 with | some o => some o | none => some (Except.ok t)))
    (fun e p => (p.1, match p.2 with | some o => some o | none => some (Except.error e)))
    (s, none)).1

/-- `awaitOrElse` (future.ts lines 268-274): resolve with the success value or
with the default on failure; never rejects. -/
def Future.awaitOrElse (f : Future T E) (d : U) (σ : Type) (emit : Ev → σ → σ) (s : σ) :
    σ × Option (Sum T U) :=
  (f.extract (σ × Option (Sum T U))
    (fun ev p => (emit ev p.1, p.2))
    (fun t p => (p.1, match p.2 with | some o => some o | none => some (Sum.inl t)))
    (fun _ p => (p.1, match p.2 with | some o => some o | none => some (Sum.inr d)))
    (s, none)).1

/-- `flatMap` (future.ts lines 338-351): on success apply `f` inside
try/catch — a thrown value (`Except.error`) is redirected to `reject`; on
failure pass the error through. The returned cancellation function is the
parent's. -/
def Future.flatMap (self : Future T E) (f : T → Except E (Future U E)) : Future U E :=
  ⟨fun σ emit res rej s =>
    self.extract σ emit
      (fun d s1 =>
        match f d with
        | Except.ok fut => (fut.extract σ emit res rej s1).1
        | Except.error err => rej err s1)
      (fun e s1 => rej e s1)
      s⟩

/-- `flatMapErr` (future.ts lines 359-372): symmetric to `flatMap` on the
failure channel. -/
def Future.flatMapErr (self : Future T E) (f : E → Except U (Future T U)) : Future T U :=
  ⟨fun σ emit res rej s =>
    self.extract σ emit
      (fun d s1 => res d s1)
      (fun e s1 =>
        match f e with
        | Except.ok fut => (fut.extract σ emit res rej s1).1
        | Except.error err => rej err s1)
      s⟩

/-- `map` (future.ts lines 308-310): `this.flatMap(x => Future.of(f(x)))`;
evaluating `f x` may throw, which the flatMap callback propagates as a throw. -/
def Future.map (self : Future T E) (f : T → Except E U) : Future U E :=
  self.flatMap (fun x => Except.map Future.ofd (f x))

/-- `mapErr` (future.ts lines 318-320): `this.flatMapErr(x => Future.reject(f(x)))`. -/
def Future.mapErr (self : Future T E) (f : E → Except U U) : Future T U :=
  self.flatMapErr (fun x => Except.map Future.rejectd (f x))

/-- `swap` (future.ts lines 326-330): run the parent with the callbacks
reversed; the parent's cancellation function is returned. -/
def Future.swap (self : Future T E) : Future E T :=
  ⟨fun σ emit res rej s => self.extract σ emit rej res s⟩

/-- An instrumented base future with identity `id` and fixed outcome `o`: its
action records `Ev.invoked id` and then settles; its cancellation function
records `Ev.cancelled id` and returns `true`. -/
def prim (id : Nat) (o : Except E T) : Future T E :=
  ⟨fun _ emit res rej s =>
    (match o with
      | Except.ok t => res t (emit (Ev.invoked id) s)
      | Except.error e => rej e (emit (Ev.invoked id) s),
     fun s1 => (emit (Ev.cancelled id) s1, true))⟩

/-- The cleanup performed by `seq` on failure (future.ts line 139):
`arr.slice(i).map(x => x.extract(() => {}, () => {})())` — run each remaining
future with no-op callbacks and immediately invoke the returned cancellation
function. -/
def cleanup (σ : Type) (emit : Ev → σ → σ) : List (Future T E) → σ → σ
  | [], s => s
  | f :: fs, s =>
    let r := f.extract σ emit (fun _ s1 => s1) (fun _ s1 => s1) s
    cleanup σ emit fs (r.2 r.1).1

/-- The async body of `seq` (future.ts lines 131-144): await each future in
order, accumulating results; on the first rejection run `cleanup` on the
suffix from the failing index (inclusive) and rethrow; `none` when an awaited
future never settles (the async body blocks). -/
def seqLoop (σ : Type) (emit : Ev → σ → σ) :
    List (Future T E) → List T → σ → σ × Option (Except E (List T))
  | [], acc, s => (s, some (Except.ok acc))
  | f :: fs, acc, s =>
    match f.await σ emit s with
    | (s1, some (Except.ok x)) => seqLoop σ emit fs (acc ++ [x]) s1
    | (s1, some (Except.error err)) => (cleanup σ emit (f :: fs) s1, some (Except.error err))
    | (s1, none) => (s1, none)

/-- `Future.seq` (future.ts lines 127-145): `Future.fromP` of the async body,
with the identity error mapper `(e) => e as any`. -/
def Future.seq (arr : List (Future T E)) : Future (List T) E :=
  Future.fromP (fun σ emit s => seqLoop σ emit arr [] s) (fun e => e)

/-- The async body of `seqSafe` (future.ts lines 192-204): like `seqLoop` but
a rejection is pushed into the result list instead of aborting; the body never
throws. -/
def seqSafeLoop (σ : Type) (emit : Ev → σ → σ) :
    List (Future T E) → List (Sum T E) → σ → σ × Option (List (Sum T E))
  | [], acc, s => (s, some acc)
  | f :: fs, acc, s =>
    match f.await σ emit s with
    | (s1, some (Except.ok x)) => seqSafeLoop σ emit fs (acc ++ [Sum.inl x]) s1
    | (s1, some (Except.error err)) => seqSafeLoop σ emit fs (acc ++ [Sum.inr err]) s1
    | (s1, none) => (s1, none)

/-- `Future.seqSafe` (future.ts lines 187-205): wraps the never-throwing async
body; since that body cannot reject, the reject callback is never used. -/
def Future.seqSafe (arr : List (Future T E)) : Future (List (Sum T E)) E :=
  ⟨fun σ emit res _ s =>
    (match seqSafeLoop σ emit arr [] s with
      | (s1, some xs) => res xs s1
      | (s1, none) => s1,
     fun s1 => (s1, true))⟩

/-- The `arr.forEach` body of `all` (future.ts lines 165-175): extract each
future; on success store the value at its index and resolve with the collected
results once `resolvedCount` reaches the input length; on failure call
`reject` directly. The per-invocation locals `results`/`resolvedCount` are
threaded through the extended state. -/
def allGo (σ : Type) (emit : Ev → σ → σ) (res : List T → σ → σ) (rej : E → σ → σ) (n : Nat) :
    List (Future T E) → Nat → σ × (List (Option T) × Nat) → σ × (List (Option T) × Nat)
  | [], _, st => st
  | f :: fs, i, st =>
    allGo σ emit res rej n fs (i + 1)
      (f.extract (σ × (List (Option T) × Nat))
        (fun ev p => (emit ev p.1, p.2))
        (fun d p =>
          let results := p.2.1.set i (some d)
          let count := p.2.2 + 1
          if count = n then (res (results.filterMap id) p.1, (results, count))
          else (p.1, (results, count)))
        (fun err p => (rej err p.1, p.2))
        st).1

/-- `Future.all` (future.ts lines 154-178): resolve `[]` at once on empty
input, otherwise run every future's action in input order. -/
def Future.all (arr : List (Future T E)) : Future (List T) E :=
  ⟨fun σ emit res rej s =>
    if arr.length = 0 then (res [] s, fun s1 => (s1, true))
    else
      ((allGo σ emit res rej arr.length arr 0 (s, (List.replicate arr.length none, 0))).1,
       fun s1 => (s1, true))⟩

/-- The `arr.forEach` body of `allSafe` (future.ts lines 226-240): both
callbacks store their value at the future's index, bump `resolvedCount` and
resolve with the collected results once every future has settled. -/
def allSafeGo (σ : Type) (emit : Ev → σ → σ) (res : List (Sum T E) → σ → σ) (n : Nat) :
    List (Future T E) → Nat → σ × (List (Option (Sum T E)) × Nat) →
      σ × (List (Option (Sum T E)) × Nat)
  | [], _, st => st
  | f :: fs, i, st =>
    allSafeGo σ emit res n fs (i + 1)
      (f.extract (σ × (List (Option (Sum T E)) × Nat))
        (fun ev p => (emit ev p.1, p.2))
        (fun d p =>
          let results := p.2.1.set i (some (Sum.inl d))
          let count := p.2.2 + 1
          if count = n then (res (results.filterMap id) p.1, (results, count))
          else (p.1, (results, count)))
        (fun err p =>
          let results := p.2.1.set i (some (Sum.inr err))
          let count := p.2.2 + 1
          if count = n then (res (results.filterMap id) p.1, (results, count))
          else (p.1, (results, count)))
        st).1

/-- `Future.allSafe` (future.ts lines 214-243): the action never references a
reject callback (the source action is `(resolve) => ...`). -/
def Future.allSafe (arr : List (Future T E)) : Future (List (Sum T E)) E :=
  ⟨fun σ emit res _ s =>
    if arr.length = 0 then (res [] s, fun s1 => (s1, true))
    else
      ((allSafeGo σ emit res arr.length arr 0 (s, (List.replicate arr.length none, 0))).1,
       fun s1 => (s1, true))⟩

/-- Consecutive batches of size `n` (for `n ≥ 1`): the partition used by the
concurrency-limited combinator. -/
def chunksOf {α : Type u} (n : Nat) : List α → List (List α)
  | [] => []
  | x :: xs => (x :: xs.take (n - 1)) :: chunksOf n (xs.drop (n - 1))
termination_by l => l.length
decreasing_by simp only [List.length_drop, List.length_cons]; omega

/-- The batch loop of the limited `all`: fully resolve each batch through the
unbounded `Future.all` before starting the next, concatenating the results;
any batch failure aborts with that failure. -/
def batchLoop (σ : Type) (emit : Ev → σ → σ) :
    List (List (Future T E)) → List T → σ → σ × Option (Except E (List T))
  | [], acc, s => (s, some (Except.ok acc))
  | c :: cs, acc, s =>
    match (Future.all c).await σ emit s with
    | (s1, some (Except.ok xs)) => batchLoop σ emit cs (acc ++ xs) s1
    | (s1, some (Except.error e)) => (s1, some (Except.error e))
    | (s1, none) => (s1, none)

/-- Modelled from the spec: the optional `limit` parameter of `Future.all`
(README `Future.all(futures, limit = 0)`) is absent from src/lib/future.ts;
per the spec, `limit = 0` is exactly the unbounded `Future.all`, and
`limit = n > 0` partitions the input into consecutive batches of size `n`,
each batch fully resolved through the unbounded case before the next batch
starts, results concatenated in input order. -/
def Future.allLimited (arr : List (Future T E)) (limit : Nat) : Future (List T) E :=
  if limit = 0 then Future.all arr
  else Future.fromP (fun σ emit s => batchLoop σ emit (chunksOf limit arr) [] s) (fun e => e)

/-- The optional-value container of src/lib/option.ts: `none` is the Empty
variant, `some val` the Present variant. The stored raw value is modelled as
`Option α`, whose `none` is the language-level null/undefined sentinel — so a
broken Present wrapping the sentinel is representable. -/
inductive TmOption (α : Type) : Type
  | none : TmOption α
  | some (val : Option α) : TmOption α
  deriving DecidableEq

/-- `noneConstructor` (option.ts lines 165-196). -/
def noneConstructor {α : Type} : TmOption α := TmOption.none

/-- `someConstructor` (option.ts lines 203-248): wraps the given raw value
with no sentinel check. -/
def someConstructor {α : Type} (val : Option α) : TmOption α := TmOption.some val

/-- `Some` (option.ts lines 255-259): normalize the null/undefined sentinel to
the Empty variant, otherwise delegate to `someConstructor`. -/
def Some {α : Type} (val : Option α) : TmOption α :=
  match val with
  | Option.none => noneConstructor
  | Option.some _ => someConstructor val

/-- `map` (option.ts lines 180-182 and 218-221): Empty maps to Empty; Present
applies the callback and wraps the result through `someConstructor` directly
(no sentinel normalization). -/
def TmOption.map {α β : Type} (o : TmOption α) (fn : Option α → Option β) : TmOption β :=
  match o with
  | TmOption.none => noneConstructor
  | TmOption.some val => someConstructor (fn val)

/-- `flatMap` (option.ts lines 183-185 and 222-224): Empty propagates; Present
returns the callback's option unchanged. -/
def TmOption.flatMap {α β : Type} (o : TmOption α) (fn : Option α → TmOption β) : TmOption β :=
  match o with
  | TmOption.none => noneConstructor
  | TmOption.some val => fn val

/-- The claimed invariant: a Present never wraps the null/undefined sentinel. -/
def TmOption.wellFormed {α : Type} : TmOption α → Bool
  | TmOption.some Option.none => false
  | _ => true

/-! Instrumentation helpers used by the theorems. -/

/-- Trace emitter: append each event to a trace list. -/
def appendEmit : Ev → List Ev → List Ev := fun ev l => l ++ [ev]

/-- Counting emitter: count how many base actions have been invoked. -/
def tickEmit : Ev → Nat → Nat
  | Ev.invoked _, n => n + 1
  | Ev.cancelled _, n => n

/-- An instrumented promise factory: invoking it records `Ev.invoked id` and
yields the fixed outcome `o`. -/
def primFac (id : Nat) (o : Option (Except A T)) : PFac T A :=
  fun _ emit s => (emit (Ev.invoked id) s, o)

/-- Build an immediately-settling future from an outcome, through `of` or
`reject` with the default cancel. -/
def ofOrReject : Except E T → Future T E
  | Except.ok t => Future.ofd t
  | Except.error e => Future.rejectd e

/-- The per-slot union value `seqSafe`/`allSafe` store: the success value or
the failure value. -/
def sumOf : Except E T → Sum T E
  | Except.ok t => Sum.inl t
  | Except.error e => Sum.inr e

/-- Whether an outcome is a success. -/
def exOk : Except E T → Bool
  | Except.ok _ => true
  | Except.error _ => false

/-- Apply an event list through an emitter. -/
def applyAll (σ : Type) (emit : Ev → σ → σ) (evs : List Ev) (s : σ) : σ :=
  evs.foldl (fun s1 ev => emit ev s1) s

/-- Observational failure: every run of the action settles by invoking the
failure callback with `e` (for every state type, emitter and callbacks). -/
def FailsWith (f : Future T E) (e : E) : Prop :=
  ∀ (σ : Type) (emit : Ev → σ → σ) (res : _ → σ → σ) (rej : _ → σ → σ) (s : σ),
    (f.action σ emit res rej s).1 = rej e s

/-! Construction-time state transformers: the faithful translation of what
each construction entry point does to the ambient state when it is CALLED
(before any trigger). Each source body only allocates a new Future value and
stores an action closure — it contains no invocation of any action — so each
transformer returns the ambient state unchanged together with the built
Future. -/

/-- Construction step of `new Future(action)` (future.ts lines 67-71). -/
def constructStep (σ : Type) (a : ActionT T E) (s : σ) : σ × Future T E := (s, ⟨a⟩)

/-- Construction step of `Future.of`. -/
def ofStep (σ : Type) (x : T) (s : σ) : σ × Future T E := (s, Future.ofd x)

/-- Construction step of `Future.reject`. -/
def rejectStep (σ : Type) (e : E) (s : σ) : σ × Future T E := (s, Future.rejectd e)

/-- Construction step of `Future.fromP` applied to a factory. -/
def fromPStep (σ : Type) (x : PFac T A) (m : A → E) (s : σ) : σ × Future T E :=
  (s, Future.fromP x m)

/-- Construction step of `map`. -/
def mapStep (σ : Type) (f : Future T E) (g : T → Except E U) (s : σ) : σ × Future U E :=
  (s, f.map g)

/-- Construction step of `flatMap`. -/
def flatMapStep (σ : Type) (f : Future T E) (g : T → Except E (Future U E)) (s : σ) :
    σ × Future U E :=
  (s, f.flatMap g)

/-- Construction step of `swap`. -/
def swapStep (σ : Type) (f : Future T E) (s : σ) : σ × Future E T := (s, f.swap)

/-! Claim theorems. -/

/-- C8: swap is an involution — `f.swap().swap()` is observably equivalent to
`f`: for every state type, emitter, pair of callbacks and starting state, the
double swap's action produces exactly the run (settlement and cancellation
function) of `f`'s action. -/
theorem c8_swap_involution :
    ∀ (f : Future T E) (σ : Type) (emit : Ev → σ → σ) (res : T → σ → σ) (rej : E → σ → σ)
      (s : σ), (f.swap.swap).action σ emit res rej s = f.action σ emit res rej s := by
  intro f σ emit res rej s
  rfl

/-- C2: a callback that throws synchronously (modelled as returning
`Except.error thr`) inside `map`, `flatMap`, `mapErr` or `flatMapErr` is
caught at the call site and the resulting Future settles on the failure
channel with the thrown value. The exception cannot escape as a raw
language-level exception: the operators are total functions whose only
failure signal is the reject callback invocation proved here. -/
theorem c2_thrown_callback_captured :
    ∀ (σ : Type) (emit : Ev → σ → σ) (s : σ) (x : T) (e : E) (thr : E) (thr2 : U)
      (g : T → Except E U) (g2 : T → Except E (Future U E))
      (ge : E → Except U U) (ge2 : E → Except U (Future T U))
      (res : U → σ → σ) (rej : E → σ → σ) (res2 : T → σ → σ) (rej2 : U → σ → σ),
      (g x = Except.error thr →
        (((Future.ofd x).map g).action σ emit res rej s).1 = rej thr s) ∧
      (g2 x = Except.error thr →
        (((Future.ofd x).flatMap g2).action σ emit res rej s).1 = rej thr s) ∧
      (ge e = Except.error thr2 →
        (((Future.rejectd (T:=T) e).mapErr ge).action σ emit res2 rej2 s).1 = rej2 thr2 s) ∧
      (ge2 e = Except.error thr2 →
        (((Future.rejectd (T:=T) e).flatMapErr ge2).action σ emit res2 rej2 s).1
          = rej2 thr2 s) := by
  intro σ emit s x e thr thr2 g g2 ge ge2 res rej res2 rej2
  refine ⟨?_, ?_, ?_, ?_⟩ <;> intro hg <;>
    simp [Future.map, Future.mapErr, Future.flatMap, Future.flatMapErr, Future.extract,
      Future.ofd, Future.of, Future.rejectd, Future.reject, Except.map, hg]

/-- C2 witness: the four conjuncts of `c2_thrown_callback_captured` at
concrete inputs, each hypothesis discharged by `rfl`. -/
theorem c2_witness :
    (((Future.ofd (E:=Nat) (1:Nat)).map
        (fun _ => (Except.error (5:Nat) : Except Nat Nat))).action
      Nat (fun _ n => n) (fun _ n => n) (fun e1 _ => e1) 0).1 = 5 ∧
    (((Future.ofd (E:=Nat) (1:Nat)).flatMap
        (fun _ => (Except.error (5:Nat) : Except Nat (Future Nat Nat)))).action
      Nat (fun _ n => n) (fun _ n => n) (fun e1 _ => e1) 0).1 = 5 ∧
    (((Future.rejectd (T:=Nat) (2:Nat)).mapErr
        (fun _ => (Except.error (6:Nat) : Except Nat Nat))).action
      Nat (fun _ n => n) (fun _ n => n) (fun e1 _ => e1) 0).1 = 6 ∧
    (((Future.rejectd (T:=Nat) (2:Nat)).flatMapErr
        (fun _ => (Except.error (6:Nat) : Except Nat (Future Nat Nat)))).action
      Nat (fun _ n => n) (fun _ n => n) (fun e1 _ => e1) 0).1 = 6 :=
  ⟨(c2_thrown_callback_captured Nat (fun _ n => n) 0 1 2 5 6
      (fun _ => Except.error 5) (fun _ => Except.error 5)
      (fun _ => Except.error 6) (fun _ => Except.error 6)
      (fun _ n => n) (fun e1 _ => e1) (fun _ n => n) (fun e1 _ => e1)).1 rfl,
   (c2_thrown_callback_captured Nat (fun _ n => n) 0 1 2 5 6
      (fun _ => Except.error 5) (fun _ => Except.error 5)
      (fun _ => Except.error 6) (fun _ => Except.error 6)
      (fun _ n => n) (fun e1 _ => e1) (fun _ n => n) (fun e1 _ => e1)).2.1 rfl,
   (c2_thrown_callback_captured Nat (fun _ n => n) 0 1 2 5 6
      (fun _ => Except.error 5) (fun _ => Except.error 5)
      (fun _ => Except.error 6) (fun _ => Except.error 6)
      (fun _ n => n) (fun e1 _ => e1) (fun _ n => n) (fun e1 _ => e1)).2.2.1 rfl,
   (c2_thrown_callback_captured Nat (fun _ n => n) 0 1 2 5 6
      (fun _ => Except.error 5) (fun _ => Except.error 5)
      (fun _ => Except.error 6) (fun _ => Except.error 6)
      (fun _ n => n) (fun e1 _ => e1) (fun _ n => n) (fun e1 _ => e1)).2.2.2 rfl⟩

/-- C3: `reject(e).flatMap(fn)` settles as the failure `e` for EVERY `fn`
(independence from `fn` is the observable content of "`fn` is never
invoked" in a pure embedding), and a failure propagates unchanged through any
subsequent `map`/`flatMap`: `FailsWith` is preserved by both, which closes the
propagation through arbitrary chains by induction on the chain. -/
theorem c3_reject_short_circuit :
    ∀ (e : E) (fn : T → Except E (Future U E)) (g : T → Except E U)
      (f : Future T E) (h : T → Except E (Future U E)) (g2 : T → Except E U),
      FailsWith ((Future.rejectd (T:=T) e).flatMap fn) e ∧
      FailsWith ((Future.rejectd (T:=T) e).map g) e ∧
      (FailsWith f e → FailsWith (f.flatMap h) e) ∧
      (FailsWith f e → FailsWith (f.map g2) e) := by
  intro e fn g f h g2
  refine ⟨?_, ?_, ?_, ?_⟩
  · intro σ emit res rej s; rfl
  · intro σ emit res rej s; rfl
  · intro hf σ emit res rej s; exact hf σ emit _ _ s
  · intro hf σ emit res rej s; exact hf σ emit _ _ s

/-- C3 witness: the short-circuit at a concrete rejection, and propagation
through a further `map`, with the `FailsWith` hypothesis discharged by an
explicit term. -/
theorem c3_witness :
    FailsWith ((Future.rejectd (T:=Nat) (7:Nat)).flatMap
      (fun _ => Except.ok (Future.ofd (1:Nat)))) 7 ∧
    FailsWith ((Future.rejectd (T:=Nat) (7:Nat)).map (fun v => Except.ok (v + 1))) 7 :=
  And.intro
    (c3_reject_short_circuit 7 (fun _ => Except.ok (Future.ofd 1)) (fun v => Except.ok (v + 1))
      (Future.rejectd 7) (fun _ => Except.ok (Future.ofd 1)) (fun v => Except.ok (v + 1))).1
    ((c3_reject_short_circuit 7 (fun _ => Except.ok (Future.ofd 1)) (fun v => Except.ok (v + 1))
      (Future.rejectd 7) (fun _ => Except.ok (Future.ofd 1))
      (fun v => Except.ok (v + 1))).2.2.2 (fun _ _ _ _ _ => rfl))

/-- C4 counterexample: `all` with two failing elements invokes the failure
callback TWICE in a single `extract` trigger (and the success callback zero
times), refuting "exactly one of the two callbacks, exactly once" as stated.
The state counts (success invocations, failure invocations). -/
theorem c4_counterexample :
    ((Future.all [Future.rejectd (T:=Nat) (1:Nat), Future.rejectd (T:=Nat) (2:Nat)]).action
      (Nat × Nat) (fun _ p => p) (fun _ p => (p.1 + 1, p.2)) (fun _ p => (p.1, p.2 + 1))
      (0, 0)).1 = (0, 2) := by decide

/-- C9 counterexample: `map` on a Present applies `someConstructor` to the
callback's raw result without normalization, so a callback returning the
null/undefined sentinel produces a Present wrapping the sentinel. -/
theorem c9_counterexample :
    TmOption.wellFormed ((Some (Option.some (5:Nat))).map (fun _ => (Option.none : Option Nat)))
      = false := by decide

/-- C9 amended: construction through `Some` normalizes the sentinel to Empty,
and `flatMap` preserves the no-sentinel invariant (it returns the callback's
option unchanged); but `map` on a Present does not re-normalize, so the
invariant is NOT preserved by `map` when the callback returns the sentinel
(see the counterexample). -/
theorem c9_present_normalization :
    ∀ (v : Option T) (o : TmOption T) (fn : Option T → TmOption U),
      (Some v).wellFormed = true ∧
      (o.wellFormed = true → (∀ w, (fn w).wellFormed = true) →
        (o.flatMap fn).wellFormed = true) := by
  intro v o fn
  constructor
  · cases v <;> rfl
  · intro ho hfn
    cases o with
    | none => rfl
    | some w => exact hfn w

/-- C9 witness: the two conjuncts of `c9_present_normalization` at concrete
inputs, with both hypotheses discharged by explicit terms. -/
theorem c9_witness :
    (Some (Option.some (3:Nat))).wellFormed = true ∧
    ((TmOption.some (Option.some (3:Nat))).flatMap
      (fun _ => Some (Option.some (4:Nat)))).wellFormed = true :=
  And.intro
    (c9_present_normalization (Option.some 3) (TmOption.some (Option.some 3))
      (fun _ => Some (Option.some (4:Nat)))).1
    ((c9_present_normalization (Option.some 3) (TmOption.some (Option.some 3))
      (fun _ => Some (Option.some (4:Nat)))).2 rfl (fun _ => rfl))

/-- C1: construction performs no work — each construction entry point
(constructor, `of`, `reject`, `fromP` with a factory, `map`, `flatMap`,
`swap`) leaves the ambient state untouched (its construction-time state
transformer is the identity on the state) — while the underlying action runs
exactly when a trigger method runs: `extract`, `await` and `awaitOrElse` on an
instrumented base future (also through a `map` chain, and for the factory of a
`fromP` future) each record exactly one invocation, and a second `extract`
records a second one (no memoization). -/
theorem c1_lazy_construction_eager_triggers :
    ∀ (σ : Type) (s : σ) (a : ActionT T E) (x : T) (e : E) (fac : PFac T A) (m : A → E)
      (f : Future T E) (g : T → Except E U) (h : T → Except E (Future U E))
      (id : Nat) (o : Except E T) (d : U),
      (constructStep σ a s).1 = s ∧ (ofStep (E:=E) σ x s).1 = s ∧ (rejectStep (T:=T) σ e s).1 = s ∧
      (fromPStep σ fac m s).1 = s ∧ (mapStep σ f g s).1 = s ∧ (flatMapStep σ f h s).1 = s ∧
      (swapStep σ f s).1 = s ∧
      (((prim id o).map g).extract Nat tickEmit (fun _ n => n) (fun _ n => n) 0).1 = 1 ∧
      ((prim id o).await Nat tickEmit 0).1 = 1 ∧
      ((prim id o).awaitOrElse d Nat tickEmit 0).1 = 1 ∧
      ((prim id o).extract Nat tickEmit (fun _ n => n) (fun _ n => n)
        (((prim id o).extract Nat tickEmit (fun _ n => n) (fun _ n => n) 0).1)).1 = 2 ∧
      ((Future.fromP (primFac id (some o)) (fun e1 => e1)).extract Nat tickEmit
        (fun _ n => n) (fun _ n => n) 0).1 = 1 := by
  intro σ s a x e fac m f g h id o d
  refine ⟨rfl, rfl, rfl, rfl, rfl, rfl, rfl, ?_, ?_, ?_, ?_, ?_⟩
  · cases o with
    | ok t =>
      cases hg : g t <;>
        simp [Future.map, Future.flatMap, Future.extract, prim, tickEmit, Future.ofd,
          Future.of, trueCancel, Except.map, hg]
    | error e1 =>
      simp [Future.map, Future.flatMap, Future.extract, prim, tickEmit]
  · cases o <;> simp [Future.await, Future.extract, prim, tickEmit]
  · cases o <;> simp [Future.awaitOrElse, Future.extract, prim, tickEmit]
  · cases o <;> simp [Future.extract, prim, tickEmit]
  · cases o <;> simp [Future.fromP, Future.extract, primFac, tickEmit]

/-! Trace lemmas. -/

lemma applyAll_nil (σ : Type) (emit : Ev → σ → σ) (s : σ) :
    applyAll σ emit [] s = s := rfl

lemma applyAll_cons (σ : Type) (emit : Ev → σ → σ) (ev : Ev) (evs : List Ev) (s : σ) :
    applyAll σ emit (ev :: evs) s = applyAll σ emit evs (emit ev s) := rfl

lemma applyAll_append (σ : Type) (emit : Ev → σ → σ) (a b : List Ev) (s : σ) :
    applyAll σ emit (a ++ b) s = applyAll σ emit b (applyAll σ emit a s) := by
  simp [applyAll, List.foldl_append]

lemma applyAll_appendEmit (evs : List Ev) (l : List Ev) :
    applyAll (List Ev) appendEmit evs l = l ++ evs := by
  induction evs generalizing l with
  | nil => simp [applyAll]
  | cons ev evs ih => simp [applyAll_cons, ih, appendEmit]

lemma applyAll_prod (σ X : Type) (emit : Ev → σ → σ) (evs : List Ev) (s : σ) (o : X) :
    applyAll (σ × X) (fun ev p => (emit ev p.1, p.2)) evs (s, o)
      = (applyAll σ emit evs s, o) := by
  induction evs generalizing s with
  | nil => rfl
  | cons ev evs ih => simp [applyAll_cons, ih]

lemma await_prim (id : Nat) (o : Except E T) (σ : Type) (emit : Ev → σ → σ) (s : σ) :
    (prim id o).await σ emit s = (emit (Ev.invoked id) s, some o) := by
  cases o <;> rfl

lemma cleanup_cons_prim (σ : Type) (emit : Ev → σ → σ) (id : Nat) (o : Except E T)
    (fs : List (Future T E)) (s : σ) :
    cleanup σ emit (prim id o :: fs) s
      = cleanup σ emit fs (emit (Ev.cancelled id) (emit (Ev.invoked id) s)) := by
  cases o <;> rfl

lemma cleanup_prim (σ : Type) (emit : Ev → σ → σ) (qs : List (Nat × Except E T)) (s : σ) :
    cleanup σ emit (qs.map fun q => prim q.1 q.2) s
      = applyAll σ emit (qs.flatMap fun q => [Ev.invoked q.1, Ev.cancelled q.1]) s := by
  induction qs generalizing s with
  | nil => rfl
  | cons q qs ih =>
    simp only [List.map_cons, cleanup_cons_prim, ih, List.flatMap_cons, applyAll_cons,
      List.cons_append, List.nil_append, applyAll_append]

lemma seqLoop_cons_ok (σ : Type) (emit : Ev → σ → σ) (id : Nat) (v : T)
    (fs : List (Future T E)) (acc : List T) (s : σ) :
    seqLoop σ emit (prim id (Except.ok v) :: fs) acc s
      = seqLoop σ emit fs (acc ++ [v]) (emit (Ev.invoked id) s) := by
  simp [seqLoop, await_prim]

lemma seqLoop_ok_front (σ : Type) (emit : Ev → σ → σ) (ps : List (Nat × T))
    (rest : List (Future T E)) (acc : List T) (s : σ) :
    seqLoop σ emit ((ps.map fun p => prim p.1 (Except.ok p.2)) ++ rest) acc s
      = seqLoop σ emit rest (acc ++ ps.map Prod.snd)
          (applyAll σ emit (ps.map fun p => Ev.invoked p.1) s) := by
  induction ps generalizing acc s with
  | nil => simp [applyAll]
  | cons p ps ih =>
    simp only [List.map_cons, List.cons_append, seqLoop_cons_ok, applyAll_cons]
    rw [ih]
    simp

lemma seqLoop_all_ok (σ : Type) (emit : Ev → σ → σ) (ps : List (Nat × T)) (acc : List T)
    (s : σ) :
    seqLoop σ emit (ps.map fun p => prim p.1 (Except.ok p.2 : Except E T)) acc s
      = (applyAll σ emit (ps.map fun p => Ev.invoked p.1) s,
         some (Except.ok (acc ++ ps.map Prod.snd))) := by
  have h := seqLoop_ok_front σ emit ps ([] : List (Future T E)) acc s
  rw [List.append_nil] at h
  rw [h]
  rfl

lemma seqLoop_fail (σ : Type) (emit : Ev → σ → σ) (ps : List (Nat × T)) (idf : Nat) (e : E)
    (qs : List (Nat × Except E T)) (acc : List T) (s : σ) :
    seqLoop σ emit ((ps.map fun p => prim p.1 (Except.ok p.2))
        ++ prim idf (Except.error e) :: (qs.map fun q => prim q.1 q.2)) acc s
      = (applyAll σ emit ((ps.map fun p => Ev.invoked p.1)
            ++ Ev.invoked idf :: (((idf, (Except.error e : Except E T)) :: qs).flatMap
              fun q => [Ev.invoked q.1, Ev.cancelled q.1])) s,
         some (Except.error e)) := by
  rw [seqLoop_ok_front]
  have hlist : prim idf (Except.error e) :: (qs.map fun q => prim q.1 q.2)
      = (((idf, (Except.error e : Except E T)) :: qs)).map fun q => prim q.1 q.2 := rfl
  simp only [seqLoop, await_prim, hlist, cleanup_prim, applyAll_append]
  simp [applyAll_cons, applyAll_append]

lemma await_fromP_ok (x : PFac T A) (m : A → E) (σ : Type) (emit : Ev → σ → σ) (s s2 : σ)
    (t : T)
    (h : x (σ × Option (Except E T)) (fun ev p => (emit ev p.1, p.2)) (s, none)
      = ((s2, none), some (Except.ok t))) :
    (Future.fromP x m).await σ emit s = (s2, some (Except.ok t)) := by
  unfold Future.await Future.fromP Future.extract
  dsimp only
  rw [h]

lemma await_fromP_err (x : PFac T A) (m : A → E) (σ : Type) (emit : Ev → σ → σ) (s s2 : σ)
    (e1 : A)
    (h : x (σ × Option (Except E T)) (fun ev p => (emit ev p.1, p.2)) (s, none)
      = ((s2, none), some (Except.error e1))) :
    (Future.fromP x m).await σ emit s = (s2, some (Except.error (m e1))) := by
  unfold Future.await Future.fromP Future.extract
  dsimp only
  rw [h]

/-- C5: `seq` runs its futures strictly in input order: on full success the
recorded trace is exactly the input-ordered action invocations and the result
is the input-ordered list of success values (hence of the input's length); on
the first failure the combinator fails with exactly that failure value, and
the cancellation function of every not-yet-started future of the remaining
suffix is invoked (its `Ev.cancelled` event is in the trace). -/
theorem c5_seq_sequential :
    ∀ (ps : List (Nat × T)) (idf : Nat) (e : E) (qs : List (Nat × Except E T)),
      (Future.seq (ps.map fun p => prim p.1 (Except.ok p.2 : Except E T))).await
          (List Ev) appendEmit []
        = (ps.map fun p => Ev.invoked p.1, some (Except.ok (ps.map Prod.snd))) ∧
      ((Future.seq ((ps.map fun p => prim p.1 (Except.ok p.2))
          ++ prim idf (Except.error e) :: (qs.map fun q => prim q.1 q.2))).await
          (List Ev) appendEmit []).2 = some (Except.error e) ∧
      qs.all (fun q =>
        ((Future.seq ((ps.map fun p => prim p.1 (Except.ok p.2))
          ++ prim idf (Except.error e) :: (qs.map fun q => prim q.1 q.2))).await
          (List Ev) appendEmit []).1.contains (Ev.cancelled q.1)) = true := by
  intro ps idf e qs
  have hok : (Future.seq (ps.map fun p => prim p.1 (Except.ok p.2 : Except E T))).await
      (List Ev) appendEmit []
      = (ps.map fun p => Ev.invoked p.1, some (Except.ok (ps.map Prod.snd))) := by
    refine await_fromP_ok _ _ _ _ _ _ _ ?_
    rw [seqLoop_all_ok, applyAll_prod, applyAll_appendEmit]
    simp
  have hfail : (Future.seq ((ps.map fun p => prim p.1 (Except.ok p.2))
      ++ prim idf (Except.error e) :: (qs.map fun q => prim q.1 q.2))).await
      (List Ev) appendEmit []
      = ((ps.map fun p => Ev.invoked p.1)
          ++ Ev.invoked idf :: (((idf, (Except.error e : Except E T)) :: qs).flatMap
            fun q => [Ev.invoked q.1, Ev.cancelled q.1]),
         some (Except.error e)) := by
    refine await_fromP_err _ _ _ _ _ _ _ ?_
    rw [seqLoop_fail, applyAll_prod, applyAll_appendEmit]
    simp
  refine ⟨hok, ?_, ?_⟩
  · rw [hfail]
  · rw [hfail]
    simp only [List.all_eq_true, List.elem_iff, List.mem_append, List.mem_cons,
      List.mem_flatMap]
    intro q hq
    exact Or.inr (Or.inr ⟨q, Or.inr hq, by simp⟩)

/-- C10: when `seq` fails at index `i`, the catch block runs `extract` with
no-op callbacks on EVERY future from index `i` onward — including the one that
just failed — and immediately invokes each returned cancellation function: the
full trace is the prefix of awaited invocations (through the failing future)
followed, for each suffix future in order, by one `invoked` (started once by
the cleanup) and one `cancelled` event. -/
theorem c10_seq_cleanup_starts_suffix :
    ∀ (ps : List (Nat × T)) (idf : Nat) (e : E) (qs : List (Nat × Except E T)),
      (Future.seq ((ps.map fun p => prim p.1 (Except.ok p.2))
          ++ prim idf (Except.error e) :: (qs.map fun q => prim q.1 q.2))).await
          (List Ev) appendEmit []
        = ((ps.map fun p => Ev.invoked p.1)
            ++ Ev.invoked idf :: (((idf, (Except.error e : Except E T)) :: qs).flatMap
              fun q => [Ev.invoked q.1, Ev.cancelled q.1]),
           some (Except.error e)) := by
  intro ps idf e qs
  refine await_fromP_err _ _ _ _ _ _ _ ?_
  rw [seqLoop_fail, applyAll_prod, applyAll_appendEmit]
  simp

lemma seqSafeLoop_cons_prim (σ : Type) (emit : Ev → σ → σ) (id : Nat) (o : Except E T)
    (fs : List (Future T E)) (acc : List (Sum T E)) (s : σ) :
    seqSafeLoop σ emit (prim id o :: fs) acc s
      = seqSafeLoop σ emit fs (acc ++ [sumOf o]) (emit (Ev.invoked id) s) := by
  cases o <;> simp [seqSafeLoop, await_prim, sumOf]

lemma seqSafeLoop_prim (σ : Type) (emit : Ev → σ → σ) (xs : List (Nat × Except E T))
    (acc : List (Sum T E)) (s : σ) :
    seqSafeLoop σ emit (xs.map fun q => prim q.1 q.2) acc s
      = (applyAll σ emit (xs.map fun q => Ev.invoked q.1) s,
         some (acc ++ xs.map fun q => sumOf q.2)) := by
  induction xs generalizing acc s with
  | nil => simp [seqSafeLoop, applyAll]
  | cons x xs ih =>
    simp only [List.map_cons, seqSafeLoop_cons_prim, applyAll_cons, ih]
    simp

lemma set_filled {α : Type} (done : List α) (v : α) (k : Nat) :
    (done.map some ++ List.replicate (k + 1) (none : Option α)).set done.length (some v)
      = (done ++ [v]).map some ++ List.replicate k none := by
  rw [List.set_append]
  simp [List.replicate_succ]

lemma allSafeGo_step (σ : Type) (emit : Ev → σ → σ) (res : List (Sum T E) → σ → σ) (n : Nat)
    (x : Except E T) (fs : List (Future T E)) (i : Nat) (s : σ)
    (results : List (Option (Sum T E))) (c : Nat) :
    allSafeGo σ emit res n (ofOrReject x :: fs) i (s, (results, c))
      = allSafeGo σ emit res n fs (i + 1)
          (if c + 1 = n then
            (res ((results.set i (some (sumOf x))).filterMap id) s,
             (results.set i (some (sumOf x)), c + 1))
           else (s, (results.set i (some (sumOf x)), c + 1))) := by
  cases x <;> rfl

lemma allSafeGo_filled (σ : Type) (emit : Ev → σ → σ) (res : List (Sum T E) → σ → σ) :
    ∀ (rest : List (Except E T)) (x : Except E T) (done : List (Sum T E)) (s : σ) (n : Nat),
      n = done.length + rest.length + 1 →
      allSafeGo σ emit res n ((x :: rest).map ofOrReject) done.length
          (s, (done.map some ++ List.replicate (rest.length + 1) none, done.length))
        = (res (done ++ (x :: rest).map sumOf) s,
           ((done ++ (x :: rest).map sumOf).map some, n)) := by
  intro rest
  induction rest with
  | nil =>
    intro x done s n hn
    simp only [List.length_nil] at hn
    rw [List.map_cons, List.map_nil, allSafeGo_step, if_pos (by omega)]
    subst hn
    rw [set_filled]
    simp [allSafeGo]
  | cons y rest3 ih =>
    intro x done s n hn
    simp only [List.length_cons] at hn
    rw [List.map_cons, allSafeGo_step, if_neg (by omega), set_filled]
    have hlen : done.length + 1 = (done ++ [sumOf x]).length := by simp
    rw [hlen, List.length_cons, ih y (done ++ [sumOf x]) s n (by simp; omega)]
    simp

lemma allSafeGo_top (σ : Type) (emit : Ev → σ → σ) (res : List (Sum T E) → σ → σ)
    (o : Except E T) (os2 : List (Except E T)) (s : σ) :
    allSafeGo σ emit res ((o :: os2).length) ((o :: os2).map ofOrReject) 0
        (s, (List.replicate ((o :: os2).length) none, 0))
      = (res ((o :: os2).map sumOf) s, (((o :: os2).map sumOf).map some, (o :: os2).length)) := by
  have h := allSafeGo_filled σ emit res os2 o [] s ((o :: os2).length) (by simp)
  simpa using h

/-- C6: `seqSafe` and `allSafe` never fail. For instrumented sequential
elements, `seqSafe` runs them all in input order and resolves with the
input-length list holding, at each index, that future's success or failure
value (`sumOf`); `allSafe` resolves likewise for any list of
immediately-settling elements; and both actions are literally independent of
the reject callback they are triggered with. -/
theorem c6_safe_never_fail :
    ∀ (xs : List (Nat × Except E T)) (os : List (Except E T))
      (arr arr2 : List (Future T E)) (σ : Type) (emit : Ev → σ → σ)
      (res res2 : List (Sum T E) → σ → σ) (rej rej2 : E → σ → σ) (s : σ),
      (Future.seqSafe (xs.map fun q => prim q.1 q.2)).await (List Ev) appendEmit []
        = (xs.map fun q => Ev.invoked q.1, some (Except.ok (xs.map fun q => sumOf q.2))) ∧
      (Future.allSafe (os.map ofOrReject)).await σ emit s
        = (s, some (Except.ok (os.map sumOf))) ∧
      (Future.seqSafe arr).action σ emit res rej s
        = (Future.seqSafe arr).action σ emit res rej2 s ∧
      (Future.allSafe arr2).action σ emit res2 rej s
        = (Future.allSafe arr2).action σ emit res2 rej2 s := by
  intro xs os arr arr2 σ emit res res2 rej rej2 s
  refine ⟨?_, ?_, rfl, rfl⟩
  · unfold Future.await Future.seqSafe Future.extract
    dsimp only
    rw [seqSafeLoop_prim, applyAll_prod, applyAll_appendEmit]
    simp
  · cases os with
    | nil => rfl
    | cons o os2 =>
      unfold Future.await Future.allSafe Future.extract
      dsimp only
      rw [if_neg (by simp), List.length_map, allSafeGo_top]

lemma allGo_step_ok (σ : Type) (emit : Ev → σ → σ) (res : List T → σ → σ) (rej : E → σ → σ)
    (n : Nat) (t : T) (fs : List (Future T E)) (i : Nat) (s : σ)
    (results : List (Option T)) (c : Nat) :
    allGo σ emit res rej n (Future.ofd t :: fs) i (s, (results, c))
      = allGo σ emit res rej n fs (i + 1)
          (if c + 1 = n then
            (res ((results.set i (some t)).filterMap id) s, (results.set i (some t), c + 1))
           else (s, (results.set i (some t), c + 1))) := rfl

lemma allGo_step_err (σ : Type) (emit : Ev → σ → σ) (res : List T → σ → σ) (rej : E → σ → σ)
    (n : Nat) (e : E) (fs : List (Future T E)) (i : Nat) (s : σ)
    (results : List (Option T)) (c : Nat) :
    allGo σ emit res rej n (Future.rejectd e :: fs) i (s, (results, c))
      = allGo σ emit res rej n fs (i + 1) (rej e s, (results, c)) := rfl

lemma allGo_count (n : Nat) :
    ∀ (os : List (Except E T)) (i c a b : Nat) (results : List (Option T)),
      (allGo (Nat × Nat) (fun _ p => p) (fun _ p => (p.1 + 1, p.2)) (fun _ p => (p.1, p.2 + 1))
          n (os.map ofOrReject) i ((a, b), (results, c))).1
        = (a + (if c < n ∧ n ≤ c + os.countP exOk then 1 else 0),
           b + os.countP (fun o => !exOk o)) := by
  intro os
  induction os with
  | nil =>
    intro i c a b results
    simp only [List.map_nil, allGo, List.countP_nil]
    rw [if_neg (by omega)]
    simp
  | cons o os ih =>
    intro i c a b results
    cases o with
    | ok t =>
      have h1 : List.countP exOk (Except.ok t :: os) = List.countP exOk os + 1 := by
        simp [List.countP_cons, exOk]
      have h2 : List.countP (fun o => !exOk o) (Except.ok t :: os)
          = List.countP (fun o => !exOk o) os := by
        simp [List.countP_cons, exOk]
      rw [List.map_cons, show ofOrReject (Except.ok t) = Future.ofd t from rfl, allGo_step_ok,
        h1, h2]
      by_cases hc : c + 1 = n
      · rw [if_pos hc, ih, Prod.mk.injEq]
        refine ⟨?_, by omega⟩
        split_ifs <;> omega
      · rw [if_neg hc, ih, Prod.mk.injEq]
        refine ⟨?_, by omega⟩
        split_ifs <;> omega
    | error e1 =>
      have h1 : List.countP exOk (Except.error e1 :: os) = List.countP exOk os := by
        simp [List.countP_cons, exOk]
      have h2 : List.countP (fun o => !exOk o) (Except.error e1 :: os)
          = List.countP (fun o => !exOk o) os + 1 := by
        simp [List.countP_cons, exOk]
      rw [List.map_cons, show ofOrReject (Except.error e1) = Future.rejectd e1 from rfl,
        allGo_step_err, ih, h1, h2, Prod.mk.injEq]
      refine ⟨?_, by omega⟩
      split_ifs <;> omega

lemma countP_exOk_add (os : List (Except E T)) :
    os.countP exOk + os.countP (fun o => !exOk o) = os.length := by
  induction os with
  | nil => rfl
  | cons o os ih =>
    cases o with
    | ok t =>
      have h1 : List.countP exOk (Except.ok t :: os) = List.countP exOk os + 1 := by
        simp [List.countP_cons, exOk]
      have h2 : List.countP (fun o => !exOk o) (Except.ok t :: os)
          = List.countP (fun o => !exOk o) os := by
        simp [List.countP_cons, exOk]
      rw [h1, h2, List.length_cons]
      omega
    | error e1 =>
      have h1 : List.countP exOk (Except.error e1 :: os) = List.countP exOk os := by
        simp [List.countP_cons, exOk]
      have h2 : List.countP (fun o => !exOk o) (Except.error e1 :: os)
          = List.countP (fun o => !exOk o) os + 1 := by
        simp [List.countP_cons, exOk]
      rw [h1, h2, List.length_cons]
      omega

lemma applyAll_noop (σ : Type) (evs : List Ev) (s : σ) :
    applyAll σ (fun _ s1 => s1) evs s = s := by
  induction evs generalizing s with
  | nil => rfl
  | cons ev evs ih => simp [applyAll_cons, ih]

/-- C4 amended: per `extract` trigger, the action settles exactly once for
`seq`, `seqSafe` and `allSafe` (exactly one callback invocation on exactly one
channel) on lists of settling elements, and likewise for `all` when no element
fails; but `all` invokes the failure callback once per FAILING element — so
with two or more failures the single-settlement invariant is violated (see the
counterexample) — and its success callback is then never invoked. The state
counts (success invocations, failure invocations). -/
theorem c4_settlement_characterization :
    ∀ (os : List (Except E T)) (ps : List (Nat × T)) (idf : Nat) (e : E)
      (qs xs : List (Nat × Except E T)),
      ((Future.all (os.map ofOrReject)).action (Nat × Nat) (fun _ p => p)
          (fun _ p => (p.1 + 1, p.2)) (fun _ p => (p.1, p.2 + 1)) (0, 0)).1
        = (if os.countP (fun o => !exOk o) = 0 then ((1 : Nat), (0 : Nat))
           else (0, os.countP (fun o => !exOk o))) ∧
      ((Future.allSafe (os.map ofOrReject)).action (Nat × Nat) (fun _ p => p)
          (fun _ p => (p.1 + 1, p.2)) (fun _ p => (p.1, p.2 + 1)) (0, 0)).1 = (1, 0) ∧
      ((Future.seq (ps.map fun p => prim p.1 (Except.ok p.2 : Except E T))).action
          (Nat × Nat) (fun _ p => p) (fun _ p => (p.1 + 1, p.2)) (fun _ p => (p.1, p.2 + 1))
          (0, 0)).1 = (1, 0) ∧
      ((Future.seq ((ps.map fun p => prim p.1 (Except.ok p.2))
          ++ prim idf (Except.error e) :: (qs.map fun q => prim q.1 q.2))).action
          (Nat × Nat) (fun _ p => p) (fun _ p => (p.1 + 1, p.2)) (fun _ p => (p.1, p.2 + 1))
          (0, 0)).1 = (0, 1) ∧
      ((Future.seqSafe (xs.map fun q => prim q.1 q.2)).action (Nat × Nat) (fun _ p => p)
          (fun _ p => (p.1 + 1, p.2)) (fun _ p => (p.1, p.2 + 1)) (0, 0)).1 = (1, 0) := by
  intro os ps idf e qs xs
  refine ⟨?_, ?_, ?_, ?_, ?_⟩
  pick_goal 3
  · unfold Future.seq Future.fromP
    dsimp only
    rw [seqLoop_all_ok, applyAll_noop]
  pick_goal 3
  · unfold Future.seq Future.fromP
    dsimp only
    rw [seqLoop_fail, applyAll_noop]
  pick_goal 3
  · unfold Future.seqSafe
    dsimp only
    rw [seqSafeLoop_prim, applyAll_noop]
  · cases os with
    | nil => rfl
    | cons o os2 =>
      unfold Future.all
      dsimp only
      rw [if_neg (by simp), List.length_map, allGo_count]
      have hsum := countP_exOk_add (o :: os2)
      have hpos : 0 < (o :: os2).length := by simp
      by_cases hE : (o :: os2).countP (fun o => !exOk o) = 0
      · rw [if_pos hE, if_pos ⟨hpos, by omega⟩]
        simp [hE]
      · rw [if_neg hE, if_neg (by rintro ⟨h1, h2⟩; omega)]
        simp
  · cases os with
    | nil => rfl
    | cons o os2 =>
      unfold Future.allSafe
      dsimp only
      rw [if_neg (by simp), List.length_map, allSafeGo_top]

lemma allGo_ofd_filled (σ : Type) (emit : Ev → σ → σ) (res : List T → σ → σ)
    (rej : E → σ → σ) :
    ∀ (rest : List T) (x : T) (done : List T) (s : σ) (n : Nat),
      n = done.length + rest.length + 1 →
      allGo σ emit res rej n ((x :: rest).map Future.ofd) done.length
          (s, (done.map some ++ List.replicate (rest.length + 1) none, done.length))
        = (res (done ++ x :: rest) s, ((done ++ x :: rest).map some, n)) := by
  intro rest
  induction rest with
  | nil =>
    intro x done s n hn
    simp only [List.length_nil] at hn
    rw [List.map_cons, List.map_nil, allGo_step_ok, if_pos (by omega)]
    subst hn
    rw [set_filled]
    simp [allGo]
  | cons y rest3 ih =>
    intro x done s n hn
    simp only [List.length_cons] at hn
    rw [List.map_cons, allGo_step_ok, if_neg (by omega), set_filled]
    have hlen : done.length + 1 = (done ++ [x]).length := by simp
    rw [hlen, List.length_cons, ih y (done ++ [x]) s n (by simp; omega)]
    simp

lemma allGo_ofd_top (σ : Type) (emit : Ev → σ → σ) (res : List T → σ → σ) (rej : E → σ → σ)
    (x : T) (rest : List T) (s : σ) :
    allGo σ emit res rej ((x :: rest).length) ((x :: rest).map Future.ofd) 0
        (s, (List.replicate ((x :: rest).length) none, 0))
      = (res (x :: rest) s, ((x :: rest).map some, (x :: rest).length)) := by
  have h := allGo_ofd_filled σ emit res rej rest x [] s ((x :: rest).length) (by simp)
  simpa using h

lemma await_all_ofd (ts : List T) (σ : Type) (emit : Ev → σ → σ) (s : σ) :
    (Future.all (ts.map Future.ofd) : Future (List T) E).await σ emit s
      = (s, some (Except.ok ts)) := by
  cases ts with
  | nil => rfl
  | cons x rest =>
    unfold Future.await Future.all Future.extract
    dsimp only
    rw [if_neg (by simp), List.length_map, allGo_ofd_top]

lemma chunksOf_nil {α : Type u} (n : Nat) : chunksOf n ([] : List α) = [] := by
  rw [chunksOf.eq_def]

lemma chunksOf_cons {α : Type u} (n : Nat) (x : α) (xs : List α) :
    chunksOf n (x :: xs) = (x :: xs.take (n - 1)) :: chunksOf n (xs.drop (n - 1)) := by
  rw [chunksOf.eq_def]

lemma chunksOf_flatten {α : Type u} (k : Nat) (l : List α) :
    (chunksOf (k + 1) l).flatten = l := by
  cases l with
  | nil => rw [chunksOf_nil]; rfl
  | cons x xs =>
    rw [chunksOf_cons, List.flatten_cons, chunksOf_flatten k (xs.drop (k + 1 - 1))]
    simp
termination_by l.length
decreasing_by simp [List.length_drop]; omega

lemma chunksOf_sizes {α : Type u} (k : Nat) (l : List α) :
    (chunksOf (k + 1) l).all (fun c => decide (c.length ≤ k + 1) && decide (0 < c.length)) = true := by
  cases l with
  | nil => rw [chunksOf_nil]; rfl
  | cons x xs =>
    rw [chunksOf_cons, List.all_cons, chunksOf_sizes k (xs.drop (k + 1 - 1))]
    simp only [Bool.and_true, Bool.and_eq_true, decide_eq_true_eq, List.length_cons,
      List.length_take]
    constructor <;> omega
termination_by l.length
decreasing_by simp [List.length_drop]; omega

lemma batchLoop_ofd (k : Nat) (σ : Type) (emit : Ev → σ → σ) (ts acc : List T) (s : σ) :
    batchLoop σ emit (chunksOf (k + 1) ((ts.map Future.ofd : List (Future T E)))) acc s
      = (s, some (Except.ok (acc ++ ts))) := by
  cases ts with
  | nil =>
    rw [List.map_nil, chunksOf_nil]
    simp [batchLoop]
  | cons x rest =>
    rw [List.map_cons, chunksOf_cons]
    rw [show (rest.map (Future.ofd : T → Future T E)).take (k + 1 - 1)
        = (rest.take k).map Future.ofd from by simp [List.map_take]]
    rw [show (rest.map (Future.ofd : T → Future T E)).drop (k + 1 - 1)
        = (rest.drop k).map Future.ofd from by simp [List.map_drop]]
    simp only [batchLoop]
    rw [show (Future.ofd x :: (rest.take k).map (Future.ofd : T → Future T E))
        = ((x :: rest.take k).map Future.ofd) from rfl]
    rw [await_all_ofd]
    have hrec := batchLoop_ofd k σ emit (rest.drop k) (acc ++ (x :: rest.take k)) s
    rw [show (acc ++ (x :: rest.take k)) ++ rest.drop k = acc ++ x :: rest from by simp] at hrec
    exact hrec
termination_by ts.length
decreasing_by simp [List.length_drop]; omega

/-- C7 (spec-modelled `limit`): with limit 0 the combinator IS the unbounded
`all` (every future started at once); empty input resolves immediately to the
empty list; for every limit the success result is the input-ordered value
list, of the input's length, obtained by fully resolving the consecutive
batches in order; and the batch partition is faithful: the chunks concatenate
back to the input and each chunk is nonempty of size at most the limit. -/
theorem c7_all_limit_batches :
    ∀ (arr arr2 : List (Future T E)) (k : Nat) (ts : List T) (σ : Type)
      (emit : Ev → σ → σ) (res : List T → σ → σ) (rej : E → σ → σ) (s : σ),
      Future.allLimited arr 0 = Future.all arr ∧
      ((Future.allLimited ([] : List (Future T E)) k).action σ emit res rej s).1 = res [] s ∧
      (Future.allLimited (ts.map Future.ofd) k : Future (List T) E).await σ emit s
        = (s, some (Except.ok ts)) ∧
      (chunksOf (k + 1) arr2).flatten = arr2 ∧
      (chunksOf (k + 1) arr2).all (fun c => decide (c.length ≤ k + 1) && decide (0 < c.length))
        = true := by
  intro arr arr2 k ts σ emit res rej s
  refine ⟨rfl, ?_, ?_, chunksOf_flatten k arr2, chunksOf_sizes k arr2⟩
  · cases k with
    | zero => rfl
    | succ k2 =>
      unfold Future.allLimited
      rw [if_neg (by omega)]
      unfold Future.fromP
      dsimp only
      rw [chunksOf_nil]
      rfl
  · cases k with
    | zero =>
      rw [show (Future.allLimited (ts.map Future.ofd) 0 : Future (List T) E)
          = Future.all (ts.map Future.ofd) from rfl]
      exact await_all_ofd ts σ emit s
    | succ k2 =>
      unfold Future.allLimited
      rw [if_neg (by omega)]
      refine await_fromP_ok _ _ _ _ _ _ _ ?_
      have hb := batchLoop_ofd (E:=E) k2 (σ × Option (Except E (List T)))
        (fun ev p => (emit ev p.1, p.2)) ts [] ((s, none))
      simpa using hb

end TMonad
